import Mathlib

/-!
Verification of the dominance engine (`src/compiler/dominators.rs`) and closure
equality (`src/closure.rs`) of the fabricator repository.

The graph interface of the Rust code is `compute(start, edges)` where nodes
carry a dense integer index.  We embed nodes as natural numbers (the repository
itself implements `Node` for `usize`); a graph is an edge function together
with an exclusive upper bound `numNodes` on the indices that occur, which is
what makes the graph finite.  Every loop of the Rust code is translated to a
fueled recursion returning `Option`; `none` models both a panic
(`expect`/failed `assert!`/out-of-bounds index) and fuel exhaustion.
-/

namespace Fabricator

/-- A finite directed graph: an edge function over dense indices, a bound on
the indices in use, and a start node.  Mirrors the `Node`/`edges` interface of
`Dominators::compute`. -/
structure Graph where
  numNodes : Nat
  edges : Nat → List Nat
  start : Nat

/-- Well-formedness: the start node and all edge endpoints of in-range nodes
are in range.  This is the "dense, low-valued index" contract of `Node`. -/
def Graph.WF (g : Graph) : Prop :=
  g.start < g.numNodes ∧ ∀ u, u < g.numNodes → ∀ v ∈ g.edges u, v < g.numNodes

instance (g : Graph) : Decidable g.WF :=
  inferInstanceAs (Decidable (g.start < g.numNodes ∧
    ∀ u, u < g.numNodes → ∀ v ∈ g.edges u, v < g.numNodes))

/-- Position of the first occurrence of `a` in `l`; models the
`postorder_indexes` `IndexMap` lookup (`get` returning `Option`). -/
def lookupIdx : List Nat → Nat → Option Nat
  | [], _ => none
  | x :: xs, a => if x = a then some 0 else (lookupIdx xs a).map (· + 1)

/-- One expansion of the node on top of the DFS stack: walk its edge list and
push every not-yet-visited successor, marking it visited immediately.  Returns
the pushed nodes in push order together with the new visited set.  Mirrors the
`for en in edges(node)` loop of `Dominators::compute`. -/
def dfsPush (succs visited : List Nat) : List Nat × List Nat :=
  match succs with
  | [] => ([], visited)
  | en :: rest =>
    if visited.contains en then dfsPush rest visited
    else
      let (p, v) := dfsPush rest (en :: visited)
      (en :: p, v)

/-- The explicit-stack DFS post-order loop of `Dominators::compute`
(`while let Some(node) = stack.last()`).  The stack head is the stack top; a
node with no freshly pushed successors is a leaf and is emitted and popped. -/
def dfsLoop (edges : Nat → List Nat) :
    Nat → List Nat → List Nat → List Nat → Option (List Nat)
  | 0, _, _, _ => none
  | _ + 1, po, [], _ => some po
  | fuel + 1, po, node :: rest, visited =>
    let (pushed, visited') := dfsPush (edges node) visited
    if pushed.isEmpty then dfsLoop edges fuel (po ++ [node]) rest visited
    else dfsLoop edges fuel po (pushed.reverse ++ node :: rest) visited'

/-- DFS entry point: stack and visited set start holding the start node.  The
fuel `2 * numNodes + 2` dominates the loop's step count (each step either
visits a fresh node or pops one stack entry). -/
def postorderOf (g : Graph) : Option (List Nat) :=
  dfsLoop g.edges (2 * g.numNodes + 2) [] [g.start] [g.start]

/-- Predecessor sets by post-order index: `predsOf g po i` lists, in ascending
order, the post-order indices `j` such that the graph has an edge
`po[j] → po[i]`.  This is the contents of the `predecessors` vector of
`IndexSet`s built in `Dominators::compute`. -/
def predsOf (g : Graph) (po : List Nat) : List (List Nat) :=
  (List.range po.length).map fun i =>
    (List.range po.length).filter fun j =>
      (g.edges (po.getD j 0)).any fun en => lookupIdx po en == some i

/-- The partially computed dominator assignment: post-order index to
post-order index, `none` meaning "no dominator computed yet".  Models the
`dominators: IndexMap<usize>` of the fixpoint loop. -/
abbrev DomMap := Nat → Option Nat

/-- Map insertion. -/
def mInsert (k v : Nat) (m : DomMap) : DomMap :=
  fun x => if x = k then some v else m x

/-- One inner loop of `intersect`: `while finger < target: finger =
dominators[finger]`.  A missing map entry models the panicking `IndexMap`
index. -/
def walkUp (m : DomMap) : Nat → Nat → Nat → Option Nat
  | 0, f, t => if f < t then none else some f
  | fuel + 1, f, t =>
    if f < t then (m f).bind fun f' => walkUp m fuel f' t
    else some f

/-- The `intersect` helper of the dominator fixpoint: walk the two fingers up
the current dominator chains until they meet. -/
def intersectLoop (m : DomMap) : Nat → Nat → Nat → Option Nat
  | 0, f1, f2 => if f1 = f2 then some f1 else none
  | fuel + 1, f1, f2 =>
    if f1 = f2 then some f1
    else do
      let f1' ← walkUp m fuel f1 f2
      let f2' ← walkUp m fuel f2 f1'
      intersectLoop m fuel f1' f2'

/-- The `for p in predecessors` fold computing `new_idom`: skip predecessors
with no computed dominator, take the first computed one, and intersect the
rest into the accumulator.  The outer `Option` is failure (fuel/panic), the
inner `Option` is the `new_idom: Option<usize>` of the Rust code. -/
def foldPreds (m : DomMap) (fuel : Nat) : List Nat → Option Nat → Option (Option Nat)
  | [], acc => some acc
  | p :: rest, acc =>
    if (m p).isSome then
      match acc with
      | none => foldPreds m fuel rest (some p)
      | some i => do
        let r ← intersectLoop m fuel p i
        foldPreds m fuel rest (some r)
    else foldPreds m fuel rest acc

/-- Process one non-start node of a fixpoint pass: compute `new_idom` from the
predecessors (the `expect` panic when no predecessor is computed is `none`),
and insert it when it differs from the current entry, reporting a change. -/
def processNode (m : DomMap) (fuel : Nat) (preds : List Nat) (ni : Nat) :
    Option (DomMap × Bool) := do
  let acc ← foldPreds m fuel preds none
  match acc with
  | none => none
  | some v =>
    if m ni = some v then some (m, false)
    else some (mInsert ni v m, true)

/-- One pass of the fixpoint: `for node in postorder.iter().rev()`, skipping
the start node, threading the map and the `changed` flag. -/
def passLoop (po : List Nat) (start : Nat) (preds : List (List Nat))
    (fuel : Nat) : List Nat → DomMap → Bool → Option (DomMap × Bool)
  | [], m, changed => some (m, changed)
  | node :: rest, m, changed =>
    if node = start then passLoop po start preds fuel rest m changed
    else do
      let ni ← lookupIdx po node
      let (m', ch) ← processNode m fuel (preds.getD ni []) ni
      passLoop po start preds fuel rest m' (changed || ch)

/-- The `while changed` loop: run passes until one reports no change. -/
def fixLoop (po : List Nat) (start : Nat) (preds : List (List Nat))
    (ifuel : Nat) : Nat → DomMap → Option DomMap
  | 0, _ => none
  | fuel + 1, m => do
    let (m', changed) ← passLoop po start preds ifuel po.reverse m false
    if changed then fixLoop po start preds ifuel fuel m' else some m'

/-- The final collection `(0..len).map(|i| dominators[i])`: every entry must
be present or the Rust code panics. -/
def extractDoms (m : DomMap) : List Nat → Option (List Nat)
  | [] => some []
  | i :: rest => do
    let v ← m i
    let vs ← extractDoms m rest
    return v :: vs

/-- The whole dominator-vector phase: initialize `dominators[start] = start`,
iterate to a fixpoint, and collect the array. -/
def dominatorsVec (g : Graph) (po : List Nat) : Option (List Nat) := do
  let r0 ← lookupIdx po g.start
  let m ← fixLoop po g.start (predsOf g po) (po.length + 1)
      (po.length * po.length + po.length + 2) (mInsert r0 r0 fun _ => none)
  extractDoms m (List.range po.length)

/-- The dominance-range construction loop: every node starts owning `[i, i]`;
walking indices in ascending order, each node's range is merged into its
immediate dominator's range.  The `assert!(i <= dominators[i])` is the `none`
branch. -/
def rangesLoop (doms : List Nat) : List Nat → List (Nat × Nat) → Option (List (Nat × Nat))
  | [], ranges => some ranges
  | i :: rest, ranges =>
    let di := doms.getD i 0
    if i ≤ di then
      if i ≠ di then
        let r := ranges.getD i (0, 0)
        let ri := ranges.getD di (0, 0)
        rangesLoop doms rest (ranges.set di (min ri.1 r.1, max ri.2 r.2))
      else rangesLoop doms rest ranges
    else none

/-- Dominance ranges for all indices. -/
def rangesPass (doms : List Nat) : Option (List (Nat × Nat)) :=
  rangesLoop doms (List.range doms.length)
    ((List.range doms.length).map fun i => (i, i))

/-- Insert post-order index `i` into the frontier set of index `r`. -/
def frontInsert (fronts : List (List Nat)) (r i : Nat) : List (List Nat) :=
  fronts.set r (let s := fronts.getD r []; if s.contains i then s else s ++ [i])

/-- The `runner` walk of the dominance-frontier pass: from a predecessor, walk
up the dominator chain recording the join node `i` until reaching `idom(i)`.
An out-of-range runner models the panicking vector index. -/
def runnerLoop (doms : List Nat) (i : Nat) :
    Nat → Nat → List (List Nat) → Option (List (List Nat))
  | 0, runner, fronts => if runner = doms.getD i 0 then some fronts else none
  | fuel + 1, runner, fronts =>
    if runner = doms.getD i 0 then some fronts
    else if runner < doms.length then
      runnerLoop doms i fuel (doms.getD runner 0) (frontInsert fronts runner i)
    else none

/-- Run the runner walk from every predecessor of join node `i`. -/
def predRunners (doms : List Nat) (i rfuel : Nat) :
    List Nat → List (List Nat) → Option (List (List Nat))
  | [], fronts => some fronts
  | p :: ps, fronts => do
    let fronts' ← runnerLoop doms i rfuel p fronts
    predRunners doms i rfuel ps fronts'

/-- The dominance-frontier pass: for every node with at least two
predecessors, run the runner walk from each predecessor. -/
def frontierLoop (preds : List (List Nat)) (doms : List Nat) (rfuel : Nat) :
    List Nat → List (List Nat) → Option (List (List Nat))
  | [], fronts => some fronts
  | i :: rest, fronts =>
    if 2 ≤ (preds.getD i []).length then do
      let fronts' ← predRunners doms i rfuel (preds.getD i []) fronts
      frontierLoop preds doms rfuel rest fronts'
    else frontierLoop preds doms rfuel rest fronts

/-- Dominance frontiers for all indices. -/
def frontierPass (preds : List (List Nat)) (doms : List Nat) (rfuel : Nat) :
    Option (List (List Nat)) :=
  frontierLoop preds doms rfuel (List.range doms.length)
    (List.replicate doms.length [])

/-- The computed dominator structure, mirroring the fields of
`Dominators<N>` (the `postorder_indexes` map is recovered by `lookupIdx`). -/
structure Dominators where
  postorder : List Nat
  dominators : List Nat
  dominance_ranges : List (Nat × Nat)
  dominance_frontiers : List (List Nat)
deriving DecidableEq, Repr

/-- `Dominators::compute`. -/
def compute (g : Graph) : Option Dominators := do
  let po ← postorderOf g
  let doms ← dominatorsVec g po
  let ranges ← rangesPass doms
  let fronts ← frontierPass (predsOf g po) doms (po.length + 1)
  return ⟨po, doms, ranges, fronts⟩

/-- `Dominators::idom`. -/
def Dominators.idom (t : Dominators) (n : Nat) : Option Nat :=
  (lookupIdx t.postorder n).map fun i =>
    t.postorder.getD (t.dominators.getD i 0) 0

/-- `Dominators::dominates`: the O(1) post-order range-containment test. -/
def Dominators.dominates (t : Dominators) (a b : Nat) : Option Bool := do
  let ia ← lookupIdx t.postorder a
  let ib ← lookupIdx t.postorder b
  let ra := t.dominance_ranges.getD ia (0, 0)
  let rb := t.dominance_ranges.getD ib (0, 0)
  return (decide (ra.1 ≤ rb.1) && decide (rb.2 ≤ ra.2))

/-- `Dominators::dominance_frontier`, with the lazy iterator materialized as
the list of nodes it yields. -/
def Dominators.dominance_frontier (t : Dominators) (n : Nat) : Option (List Nat) :=
  (lookupIdx t.postorder n).map fun i =>
    (t.dominance_frontiers.getD i []).map fun j => t.postorder.getD j 0

/-- The dominator chain of a post-order index: the index followed by the chain
of its immediate dominator, ending at a fixed point of the dominator array. -/
def chainIdx (doms : List Nat) : Nat → Nat → List Nat
  | 0, i => [i]
  | fuel + 1, i =>
    if doms.getD i 0 = i then [i] else i :: chainIdx doms fuel (doms.getD i 0)

/-- The dominator chain of a node, as nodes. -/
def nodeChain (t : Dominators) (n : Nat) : List Nat :=
  match lookupIdx t.postorder n with
  | none => []
  | some i => (chainIdx t.dominators t.dominators.length i).map fun j =>
      t.postorder.getD j 0

/-- `p` is a path of graph edges from `a` to `b` (the every-path definition of
dominance quantifies over these). -/
def PathFromTo (g : Graph) (a b : Nat) (p : List Nat) : Prop :=
  p.head? = some a ∧ p.getLast? = some b ∧ List.Chain' (fun u v => v ∈ g.edges u) p

/-- `b` is reachable from the start node. -/
def Reachable (g : Graph) (b : Nat) : Prop :=
  ∃ p, PathFromTo g g.start b p

/-- Inductive reachability, used to relate the DFS to path reachability. -/
inductive Reach (g : Graph) : Nat → Prop
  | base : Reach g g.start
  | step {u v : Nat} : Reach g u → v ∈ g.edges u → Reach g v

/-- The every-path definition of dominance from the spec glossary: `a`
dominates `b` when every path from the start node to `b` passes through `a`. -/
def PathDominates (g : Graph) (a b : Nat) : Prop :=
  ∀ p, PathFromTo g g.start b p → a ∈ p

/-- Loop invariant of the DFS post-order loop, relating the emitted prefix
`po`, the stack (head = top) and the visited set. -/
structure DfsInv (g : Graph) (po stack visited : List Nat) : Prop where
  stack_nodup : stack.Nodup
  po_nodup : po.Nodup
  po_disj : ∀ x ∈ po, x ∉ stack
  stack_vis : ∀ x ∈ stack, x ∈ visited
  po_vis : ∀ x ∈ po, x ∈ visited
  vis_cover : ∀ x ∈ visited, x ∈ po ∨ x ∈ stack
  vis_lt : ∀ x ∈ visited, x < g.numNodes
  po_closed : ∀ x ∈ po, ∀ y ∈ g.edges x, y ∈ visited
  stack_disc : ∀ x ∈ stack, x ≠ g.start →
    ∃ s1 s2 t, stack = s1 ++ x :: s2 ∧ t ∈ s2 ∧ x ∈ g.edges t
  po_disc : ∀ i, i < po.length → po.getD i 0 ≠ g.start →
    (∃ t ∈ stack, po.getD i 0 ∈ g.edges t) ∨
    (∃ j, i < j ∧ j < po.length ∧ po.getD i 0 ∈ g.edges (po.getD j 0))
  start_bottom : (stack = [] → po.getLast? = some g.start) ∧
    (stack ≠ [] → stack.getLast? = some g.start ∧ g.start ∉ po)
  vis_reach : ∀ x ∈ visited, Reach g x

/-- Facts established about the final DFS post-order sequence. -/
structure DfsFacts (g : Graph) (po : List Nat) : Prop where
  nodup : po.Nodup
  last_start : po.getLast? = some g.start
  mem_lt : ∀ x ∈ po, x < g.numNodes
  closed : ∀ x ∈ po, ∀ y ∈ g.edges x, y ∈ po
  disc : ∀ i, i < po.length → po.getD i 0 ≠ g.start →
    ∃ j, i < j ∧ j < po.length ∧ po.getD i 0 ∈ g.edges (po.getD j 0)
  mem_iff : ∀ x, x ∈ po ↔ Reach g x

/-- Invariant of the dominator map during the fixpoint: the start entry maps
the root index to itself and every entry is bounded by the length and at
least (strictly above, off the root) its key. -/
def MInv (len root : Nat) (m : DomMap) : Prop :=
  m root = some root ∧
  ∀ k v, m k = some v → k < len ∧ v < len ∧ k ≤ v ∧ (k ≠ root → k < v)

/-- Interval containment: `a` lies inside `b`. -/
def rngSub (a b : Nat × Nat) : Prop :=
  b.1 ≤ a.1 ∧ a.2 ≤ b.2

/-- The counterexample graph: `0 → {1, 2}`, `1 → 3`, `2 → {3, 4}`.  Node `3`
is a join reached both through `1` and through `2`; node `4` is dominated by
`2`.  In the DFS post-order `[4, 3, 2, 1, 0]` the set of nodes dominated by
node `2`, namely `{2, 4}` with indices `{2, 0}`, is not contiguous: index `1`
(node `3`) lies in between, so the merged range of node `2` spuriously covers
node `3`. -/
def g0 : Graph :=
  ⟨5, fun n => if n = 0 then [1, 2] else if n = 1 then [3] else
      if n = 2 then [3, 4] else [], 0⟩

/-- The graph of the repository's own `test_dominator_tree` test: nodes
`A..F = 0..5` with `A→B`, `B→{C,D}`, `C→{E,F}`, `D→{C,F}`, and the
unreachable node `G = 6` with `G→E`. -/
def gT : Graph :=
  ⟨7, fun n => if n = 0 then [1] else if n = 1 then [2, 3] else
      if n = 2 then [4, 5] else if n = 3 then [2, 5] else
      if n = 6 then [4] else [], 0⟩

/-- A join into the start node: `0 → {1, 2}`, `1 → 0`, `2 → 0`.  The start
node dominates its predecessors `1` and `2` and does not strictly dominate
itself, so the dominance-frontier membership law places `0` in the frontier
of `0`; but the runner walk of the frontier pass stops at `idom(0) = 0` and
never inserts the start node into any frontier. -/
def gJ : Graph :=
  ⟨3, fun n => if n = 0 then [1, 2] else if n = 1 then [0] else
      if n = 2 then [0] else [], 0⟩

/-- Modelled from the spec: the compile-time constant payload (the file
`constant.rs` is not part of the provided sources).  Constants reference only
primitive literal kinds; the exact variants are irrelevant to closure
equality, which never inspects them. -/
inductive Constant where
  | integer : Int → Constant
  | interned : String → Constant
deriving DecidableEq

/-- The compiled artifact of `closure.rs`: fixed parameter count, constant
pool and flat bytecode (the bytecode is opaque here; `bytecode.rs` is not
part of the provided sources and the spec treats it as an opaque linear
sequence). -/
structure Prototype where
  fixed_params : Nat
  constants : List Constant
  bytecode : List Nat
deriving DecidableEq

/-- A `Closure` wraps `Gc<'gc, Prototype<'gc>>`: a shared pointer into the GC
heap.  We model the pointer as its address; the heap contents are a separate
store function, so that distinct addresses may hold equal prototypes. -/
structure Closure where
  ptr : Nat
deriving DecidableEq

/-- The `PartialEq for Closure` implementation: `Gc::ptr_eq` on the wrapped
prototype pointer. -/
def closureEq (c1 c2 : Closure) : Bool :=
  c1.ptr == c2.ptr

/-- Facts established about every successfully computed `Dominators` value:
DFS facts about the post-order, index bounds and strict increase of the
dominator vector, and endpoint/containment facts about the dominance
ranges. -/
structure MainFacts (g : Graph) (t : Dominators) : Prop where
  dfs : DfsFacts g t.postorder
  doms_len : t.dominators.length = t.postorder.length
  doms_lt : ∀ i, i < t.postorder.length → t.dominators.getD i 0 < t.postorder.length
  doms_ge : ∀ i, i < t.postorder.length → i ≤ t.dominators.getD i 0
  doms_strict : ∀ i, i < t.postorder.length → i ≠ t.postorder.length - 1 →
    i < t.dominators.getD i 0
  doms_root : t.dominators.getD (t.postorder.length - 1) 0 = t.postorder.length - 1
  ranges_len : t.dominance_ranges.length = t.postorder.length
  ranges_end : ∀ j, j < t.postorder.length → (t.dominance_ranges.getD j (0, 0)).2 = j
  ranges_fst : ∀ j, j < t.postorder.length → (t.dominance_ranges.getD j (0, 0)).1 ≤ j
  ranges_sub : ∀ i, i < t.postorder.length → i ≠ t.dominators.getD i 0 →
    rngSub (t.dominance_ranges.getD i (0, 0))
      (t.dominance_ranges.getD (t.dominators.getD i 0) (0, 0))
  ranges_root : ∀ i, i < t.postorder.length →
    rngSub (t.dominance_ranges.getD i (0, 0))
      (t.dominance_ranges.getD (t.postorder.length - 1) (0, 0))

theorem lookupIdx_some_lt : ∀ {l : List Nat} {a i : Nat},
    lookupIdx l a = some i → i < l.length := by
  intro l
  induction l with
  | nil => intro a i h; simp [lookupIdx] at h
  | cons x xs ih =>
    intro a i h
    by_cases hx : x = a
    · simp [lookupIdx, hx] at h
      simp [← h]
    · simp only [lookupIdx, if_neg hx, Option.map_eq_some'] at h
      obtain ⟨j, hj, hji⟩ := h
      have := ih hj
      simp [← hji]
      omega

theorem lookupIdx_some_getD : ∀ {l : List Nat} {a i : Nat},
    lookupIdx l a = some i → l.getD i 0 = a := by
  intro l
  induction l with
  | nil => intro a i h; simp [lookupIdx] at h
  | cons x xs ih =>
    intro a i h
    by_cases hx : x = a
    · simp [lookupIdx, hx] at h
      simp [← h, hx]
    · simp only [lookupIdx, if_neg hx, Option.map_eq_some'] at h
      obtain ⟨j, hj, hji⟩ := h
      subst hji
      simpa using ih hj

theorem lookupIdx_none_iff {l : List Nat} {a : Nat} :
    lookupIdx l a = none ↔ a ∉ l := by
  induction l with
  | nil => simp [lookupIdx]
  | cons x xs ih =>
    by_cases hx : x = a
    · simp [lookupIdx, hx]
    · simp [lookupIdx, hx, ih, Ne.symm hx]

theorem getD_mem {l : List Nat} {i : Nat} (h : i < l.length) :
    l.getD i 0 ∈ l := by
  rw [List.getD_eq_getElem l 0 h]
  exact List.getElem_mem h

theorem lookupIdx_mem_getD {l : List Nat} {a i : Nat}
    (h : lookupIdx l a = some i) : a ∈ l := by
  have hg := lookupIdx_some_getD h
  rw [← hg]
  exact getD_mem (lookupIdx_some_lt h)

theorem lookupIdx_isSome_iff {l : List Nat} {a : Nat} :
    (lookupIdx l a).isSome ↔ a ∈ l := by
  cases h : lookupIdx l a with
  | none => simpa using lookupIdx_none_iff.mp h
  | some i => simpa using lookupIdx_mem_getD h

theorem lookupIdx_getD_nodup : ∀ {l : List Nat}, l.Nodup → ∀ {i : Nat},
    i < l.length → lookupIdx l (l.getD i 0) = some i := by
  intro l
  induction l with
  | nil => intro _ i h; simp at h
  | cons x xs ih =>
    intro hn i hi
    rcases List.nodup_cons.mp hn with ⟨hx, hxs⟩
    cases i with
    | zero => simp [lookupIdx]
    | succ j =>
      have hj : j < xs.length := by simpa using hi
      have hmem : xs.getD j 0 ∈ xs := getD_mem hj
      have hne : x ≠ xs.getD j 0 := fun he => hx (he ▸ hmem)
      rw [List.getD_cons_succ]
      simp only [lookupIdx, if_neg hne, ih hxs hj]
      rfl

theorem dfsPush_spec : ∀ (succs visited : List Nat),
    (dfsPush succs visited).2 = (dfsPush succs visited).1.reverse ++ visited ∧
    (dfsPush succs visited).1.Nodup ∧
    (∀ x, x ∈ (dfsPush succs visited).1 ↔ x ∈ succs ∧ x ∉ visited) := by
  intro succs
  induction succs with
  | nil => intro visited; simp [dfsPush]
  | cons en rest ih =>
    intro visited
    by_cases hc : en ∈ visited
    · have hE : dfsPush (en :: rest) visited = dfsPush rest visited := by
        simp [dfsPush, hc]
      rcases ih visited with ⟨h1, h2, h3⟩
      rw [hE]
      refine ⟨h1, h2, ?_⟩
      intro x
      rw [h3 x]
      constructor
      · rintro ⟨hr, hv⟩; exact ⟨List.mem_cons_of_mem _ hr, hv⟩
      · rintro ⟨hr, hv⟩
        rcases List.mem_cons.mp hr with he | hr
        · exact absurd (he ▸ hc) hv
        · exact ⟨hr, hv⟩
    · rcases ih (en :: visited) with ⟨h1, h2, h3⟩
      have hE : dfsPush (en :: rest) visited =
          (en :: (dfsPush rest (en :: visited)).1, (dfsPush rest (en :: visited)).2) := by
        simp [dfsPush, hc]
      rw [hE]
      refine ⟨?_, ?_, ?_⟩
      · rw [h1]
        simp
      · refine List.nodup_cons.mpr ⟨?_, h2⟩
        intro hmem
        exact ((h3 en).mp hmem).2 (List.mem_cons_self en visited)
      · intro x
        simp only [List.mem_cons]
        constructor
        · rintro (rfl | hx)
          · exact ⟨Or.inl rfl, hc⟩
          · rcases (h3 x).mp hx with ⟨hr, hv⟩
            exact ⟨Or.inr hr, fun hxv => hv (List.mem_cons_of_mem _ hxv)⟩
        · rintro ⟨(rfl | hr), hv⟩
          · exact Or.inl rfl
          · by_cases hxe : x = en
            · exact Or.inl hxe
            · exact Or.inr ((h3 x).mpr ⟨hr, by
                intro hx
                rcases List.mem_cons.mp hx with h | h
                · exact hxe h
                · exact hv h⟩)

theorem mem_of_getLast?_eq {l : List Nat} {a : Nat} (h : l.getLast? = some a) :
    a ∈ l := by
  cases l with
  | nil => simp at h
  | cons x xs =>
    rw [List.getLast?_eq_getLast _ (by simp)] at h
    exact (Option.some_inj.mp h) ▸ List.getLast_mem _

theorem getLast?_append_right {l m : List Nat} (hm : m ≠ []) :
    (l ++ m).getLast? = m.getLast? := by
  rw [List.getLast?_append]
  rw [List.getLast?_eq_getLast m hm]
  rfl

theorem getD_concat_length (l : List Nat) (x : Nat) :
    (l ++ [x]).getD l.length 0 = x := by
  induction l with
  | nil => rfl
  | cons y ys ih => simp only [List.cons_append, List.length_cons, List.getD_cons_succ, ih]

theorem getD_append_left {l m : List Nat} {i : Nat} (h : i < l.length) :
    (l ++ m).getD i 0 = l.getD i 0 := by
  induction l generalizing i with
  | nil => simp at h
  | cons y ys ih =>
    cases i with
    | zero => rfl
    | succ j => simpa using ih (by simpa using h)

theorem dfsPush_empty_iff {succs visited : List Nat} :
    (dfsPush succs visited).1 = [] ↔ ∀ x ∈ succs, x ∈ visited := by
  rcases dfsPush_spec succs visited with ⟨-, -, h3⟩
  constructor
  · intro he x hx
    by_contra hv
    have : x ∈ (dfsPush succs visited).1 := (h3 x).mpr ⟨hx, hv⟩
    simp [he] at this
  · intro hall
    by_contra hne
    rcases List.exists_mem_of_ne_nil _ hne with ⟨x, hx⟩
    exact ((h3 x).mp hx).2 (hall x ((h3 x).mp hx).1)

theorem dfsInv_push (g : Graph) (hwf : g.WF) {po rest visited : List Nat} {node : Nat}
    (hI : DfsInv g po (node :: rest) visited) :
    DfsInv g po ((dfsPush (g.edges node) visited).1.reverse ++ node :: rest)
      ((dfsPush (g.edges node) visited).2) := by
  rcases dfsPush_spec (g.edges node) visited with ⟨h1, h2, h3⟩
  set P := (dfsPush (g.edges node) visited).1 with hP
  have hPmem : ∀ x ∈ P, x ∈ g.edges node ∧ x ∉ visited := fun x hx => (h3 x).mp hx
  have hnodevis : node ∈ visited := hI.stack_vis node (List.mem_cons_self _ _)
  have hnodelt : node < g.numNodes := hI.vis_lt node hnodevis
  rw [h1]
  constructor
  case stack_nodup =>
    rw [List.nodup_append]
    refine ⟨List.nodup_reverse.mpr h2, hI.stack_nodup, ?_⟩
    intro x hx hx'
    exact (hPmem x (List.mem_reverse.mp hx)).2 (hI.stack_vis x hx')
  case po_nodup => exact hI.po_nodup
  case po_disj =>
    intro x hx hx'
    rcases List.mem_append.mp hx' with h | h
    · exact (hPmem x (List.mem_reverse.mp h)).2 (hI.po_vis x hx)
    · exact hI.po_disj x hx h
  case stack_vis =>
    intro x hx
    rcases List.mem_append.mp hx with h | h
    · exact List.mem_append.mpr (Or.inl h)
    · exact List.mem_append.mpr (Or.inr (hI.stack_vis x h))
  case po_vis =>
    intro x hx
    exact List.mem_append.mpr (Or.inr (hI.po_vis x hx))
  case vis_cover =>
    intro x hx
    rcases List.mem_append.mp hx with h | h
    · exact Or.inr (List.mem_append.mpr (Or.inl h))
    · rcases hI.vis_cover x h with h' | h'
      · exact Or.inl h'
      · exact Or.inr (List.mem_append.mpr (Or.inr h'))
  case vis_lt =>
    intro x hx
    rcases List.mem_append.mp hx with h | h
    · exact hwf.2 node hnodelt x (hPmem x (List.mem_reverse.mp h)).1
    · exact hI.vis_lt x h
  case po_closed =>
    intro x hx y hy
    exact List.mem_append.mpr (Or.inr (hI.po_closed x hx y hy))
  case stack_disc =>
    intro x hx hxs
    rcases List.mem_append.mp hx with h | h
    · rcases List.append_of_mem h with ⟨s1, s2, hsplit⟩
      refine ⟨s1, s2 ++ node :: rest, node, ?_, ?_, ?_⟩
      · rw [hsplit]; simp
      · simp
      · exact (hPmem x (List.mem_reverse.mp h)).1
    · rcases hI.stack_disc x h hxs with ⟨s1, s2, t, hsplit, ht, hedge⟩
      refine ⟨P.reverse ++ s1, s2, t, ?_, ht, hedge⟩
      rw [hsplit]; simp
  case po_disc =>
    intro i hi hne
    rcases hI.po_disc i hi hne with ⟨t, ht, hedge⟩ | h
    · exact Or.inl ⟨t, List.mem_append.mpr (Or.inr ht), hedge⟩
    · exact Or.inr h
  case start_bottom =>
    constructor
    · intro h
      exact absurd h (by simp)
    · intro _
      have hne : node :: rest ≠ [] := by simp
      rcases hI.start_bottom.2 hne with ⟨hl, hs⟩
      exact ⟨by rw [getLast?_append_right hne]; exact hl, hs⟩
  case vis_reach =>
    intro x hx
    rcases List.mem_append.mp hx with h | h
    · exact Reach.step (hI.vis_reach node hnodevis) (hPmem x (List.mem_reverse.mp h)).1
    · exact hI.vis_reach x h

theorem dfsInv_pop (g : Graph) {po rest visited : List Nat} {node : Nat}
    (hI : DfsInv g po (node :: rest) visited)
    (hleaf : (dfsPush (g.edges node) visited).1 = []) :
    DfsInv g (po ++ [node]) rest visited := by
  have hsucc : ∀ y ∈ g.edges node, y ∈ visited := dfsPush_empty_iff.mp hleaf
  have hnodevis : node ∈ visited := hI.stack_vis node (List.mem_cons_self _ _)
  have hnodenotrest : node ∉ rest := (List.nodup_cons.mp hI.stack_nodup).1
  have hnodenotpo : node ∉ po := fun h => hI.po_disj node h (List.mem_cons_self _ _)
  constructor
  case stack_nodup => exact (List.nodup_cons.mp hI.stack_nodup).2
  case po_nodup =>
    rw [List.nodup_append]
    exact ⟨hI.po_nodup, List.nodup_singleton node, by
      intro x hx hx'
      rw [List.mem_singleton] at hx'
      exact hnodenotpo (hx' ▸ hx)⟩
  case po_disj =>
    intro x hx hx'
    rcases List.mem_append.mp hx with h | h
    · exact hI.po_disj x h (List.mem_cons_of_mem _ hx')
    · rw [List.mem_singleton] at h
      exact hnodenotrest (h ▸ hx')
  case stack_vis => exact fun x hx => hI.stack_vis x (List.mem_cons_of_mem _ hx)
  case po_vis =>
    intro x hx
    rcases List.mem_append.mp hx with h | h
    · exact hI.po_vis x h
    · rw [List.mem_singleton] at h; exact h ▸ hnodevis
  case vis_cover =>
    intro x hx
    rcases hI.vis_cover x hx with h | h
    · exact Or.inl (List.mem_append.mpr (Or.inl h))
    · rcases List.mem_cons.mp h with h' | h'
      · exact Or.inl (List.mem_append.mpr (Or.inr (by simp [h'])))
      · exact Or.inr h'
  case vis_lt => exact hI.vis_lt
  case po_closed =>
    intro x hx y hy
    rcases List.mem_append.mp hx with h | h
    · exact hI.po_closed x h y hy
    · rw [List.mem_singleton] at h
      exact hsucc y (h ▸ hy)
  case stack_disc =>
    intro x hx hxs
    rcases hI.stack_disc x (List.mem_cons_of_mem _ hx) hxs with
      ⟨s1, s2, t, hsplit, ht, hedge⟩
    cases s1 with
    | nil =>
      simp at hsplit
      exact absurd (hsplit.1 ▸ hx) hnodenotrest
    | cons y s1' =>
      rw [List.cons_append] at hsplit
      have h1 := (List.cons.injEq _ _ _ _).mp hsplit
      exact ⟨s1', s2, t, h1.2, ht, hedge⟩
  case po_disc =>
    intro i hi hne
    rw [List.length_append, List.length_singleton] at hi
    by_cases hilt : i < po.length
    · rw [getD_append_left hilt] at hne ⊢
      rcases hI.po_disc i hilt hne with ⟨t, ht, hedge⟩ | ⟨j, hij, hj, hedge⟩
      · rcases List.mem_cons.mp ht with h' | h'
        · refine Or.inr ⟨po.length, hilt, by simp, ?_⟩
          rw [getD_concat_length]
          exact h' ▸ hedge
        · exact Or.inl ⟨t, h', hedge⟩
      · refine Or.inr ⟨j, hij, by simp; omega, ?_⟩
        rw [getD_append_left hj]
        exact hedge
    · have hieq : i = po.length := by omega
      subst hieq
      rw [getD_concat_length] at hne
      rcases hI.stack_disc node (List.mem_cons_self _ _) hne with
        ⟨s1, s2, t, hsplit, ht, hedge⟩
      cases s1 with
      | nil =>
        simp at hsplit
        exact Or.inl ⟨t, hsplit ▸ ht, by rw [getD_concat_length]; exact hedge⟩
      | cons y s1' =>
        rw [List.cons_append] at hsplit
        have h1 := (List.cons.injEq _ _ _ _).mp hsplit
        have : node ∈ rest := by
          rw [h1.2]
          exact List.mem_append.mpr (Or.inr (List.mem_cons_self _ _))
        exact absurd this hnodenotrest
  case start_bottom =>
    constructor
    · intro hrest
      subst hrest
      rcases hI.start_bottom.2 (by simp) with ⟨hl, _⟩
      simp at hl
      simp [hl]
    · intro hrest
      rcases hI.start_bottom.2 (by simp) with ⟨hl, hs⟩
      rw [show node :: rest = [node] ++ rest from rfl, getLast?_append_right hrest] at hl
      have hnodestart : node ≠ g.start := by
        intro h
        have hmem : g.start ∈ rest := mem_of_getLast?_eq hl
        exact hnodenotrest (by rw [h]; exact hmem)
      refine ⟨hl, ?_⟩
      intro hmem
      rcases List.mem_append.mp hmem with h | h
      · exact hs h
      · rw [List.mem_singleton] at h
        exact hnodestart h.symm
  case vis_reach => exact hI.vis_reach

theorem dfsLoop_sound (g : Graph) : ∀ (fuel : Nat) (po stack visited res : List Nat),
    dfsLoop g.edges fuel po stack visited = some res →
    g.WF → DfsInv g po stack visited → DfsFacts g res := by
  intro fuel
  induction fuel with
  | zero => intro po stack visited res h _ _; simp [dfsLoop] at h
  | succ f ih =>
    intro po stack visited res h hwf hI
    cases stack with
    | nil =>
      simp [dfsLoop] at h
      subst h
      have hvispo : ∀ x ∈ visited, x ∈ po := fun x hx =>
        (hI.vis_cover x hx).resolve_right (by simp)
      have hclosed : ∀ x ∈ po, ∀ y ∈ g.edges x, y ∈ po :=
        fun x hx y hy => hvispo y (hI.po_closed x hx y hy)
      have hstart : g.start ∈ po := mem_of_getLast?_eq (hI.start_bottom.1 rfl)
      refine ⟨hI.po_nodup, hI.start_bottom.1 rfl,
        fun x hx => hI.vis_lt x (hI.po_vis x hx), hclosed, ?_, ?_⟩
      · intro i hi hne
        refine (hI.po_disc i hi hne).resolve_left ?_
        rintro ⟨t, ht, -⟩
        simp at ht
      · intro x
        constructor
        · intro hx
          exact hI.vis_reach x (hI.po_vis x hx)
        · intro hr
          induction hr with
          | base => exact hstart
          | step hu he ih2 => exact hclosed _ ih2 _ he
    | cons node rest =>
      simp only [dfsLoop] at h
      rcases hE : dfsPush (g.edges node) visited with ⟨pushed, visited'⟩
      rw [hE] at h
      simp only [] at h
      by_cases hp : pushed.isEmpty
      · rw [if_pos hp] at h
        have hleaf : (dfsPush (g.edges node) visited).1 = [] := by
          rw [hE]
          exact List.isEmpty_iff.mp hp
        exact ih _ _ _ _ h hwf (dfsInv_pop g hI hleaf)
      · rw [if_neg hp] at h
        have hIn := dfsInv_push g hwf hI
        rw [hE] at hIn
        exact ih _ _ _ _ h hwf hIn

theorem dfsInv_init (g : Graph) (hwf : g.WF) : DfsInv g [] [g.start] [g.start] := by
  constructor
  case stack_nodup => simp
  case po_nodup => simp
  case po_disj => simp
  case stack_vis => simp
  case po_vis => simp
  case vis_cover => intro x hx; exact Or.inr hx
  case vis_lt =>
    intro x hx
    rw [List.mem_singleton] at hx
    exact hx ▸ hwf.1
  case po_closed => simp
  case stack_disc =>
    intro x hx hne
    rw [List.mem_singleton] at hx
    exact absurd hx hne
  case po_disc => simp
  case start_bottom =>
    refine ⟨by simp, fun _ => ⟨by simp, by simp⟩⟩
  case vis_reach =>
    intro x hx
    rw [List.mem_singleton] at hx
    exact hx ▸ Reach.base

theorem postorderOf_facts (g : Graph) (hwf : g.WF) {po : List Nat}
    (h : postorderOf g = some po) : DfsFacts g po :=
  dfsLoop_sound g _ _ _ _ _ h hwf (dfsInv_init g hwf)

theorem DfsFacts.length_pos {g : Graph} {po : List Nat} (hF : DfsFacts g po) :
    0 < po.length :=
  List.length_pos.mpr (List.ne_nil_of_mem (mem_of_getLast?_eq hF.last_start))

theorem DfsFacts.getD_last {g : Graph} {po : List Nat} (hF : DfsFacts g po) :
    po.getD (po.length - 1) 0 = g.start := by
  have hne : po ≠ [] := List.ne_nil_of_mem (mem_of_getLast?_eq hF.last_start)
  have := hF.last_start
  rw [List.getLast?_eq_getLast _ hne] at this
  rw [List.getD_eq_getElem po 0 (by
    have := List.length_pos.mpr hne
    omega)]
  rw [← List.getLast_eq_getElem po hne]
  exact Option.some_inj.mp this

theorem DfsFacts.lookup_start {g : Graph} {po : List Nat} (hF : DfsFacts g po) :
    lookupIdx po g.start = some (po.length - 1) := by
  have h := hF.getD_last
  rw [← h]
  exact lookupIdx_getD_nodup hF.nodup (by have := hF.length_pos; omega)

theorem DfsFacts.getD_eq_start_iff {g : Graph} {po : List Nat} (hF : DfsFacts g po)
    {i : Nat} (hi : i < po.length) :
    po.getD i 0 = g.start ↔ i = po.length - 1 := by
  constructor
  · intro h
    have h1 : lookupIdx po (po.getD i 0) = some i := lookupIdx_getD_nodup hF.nodup hi
    rw [h, hF.lookup_start] at h1
    exact (Option.some_inj.mp h1).symm
  · intro h
    exact h ▸ hF.getD_last

theorem getD_range {n k : Nat} (h : k < n) : (List.range n).getD k 0 = k := by
  rw [List.getD_eq_getElem _ 0 (by simpa using h)]
  simp

theorem take_succ_getD {l : List Nat} {k : Nat} (h : k < l.length) :
    l.take (k + 1) = l.take k ++ [l.getD k 0] := by
  rw [List.getD_eq_getElem l 0 h, List.take_succ, List.getElem?_eq_getElem h]
  rfl

theorem walkUp_ge {m : DomMap} (hm : ∀ k v, m k = some v → k ≤ v) :
    ∀ {fuel f t r : Nat}, walkUp m fuel f t = some r → f ≤ r ∧ t ≤ r := by
  intro fuel
  induction fuel with
  | zero =>
    intro f t r h
    simp only [walkUp] at h
    by_cases hf : f < t
    · rw [if_pos hf] at h; simp at h
    · rw [if_neg hf] at h
      have := Option.some_inj.mp h
      omega
  | succ fl ih =>
    intro f t r h
    simp only [walkUp] at h
    by_cases hf : f < t
    · rw [if_pos hf] at h
      rcases Option.bind_eq_some.mp h with ⟨f', hf', hw⟩
      have h1 := hm f f' hf'
      have h2 := ih hw
      omega
    · rw [if_neg hf] at h
      have := Option.some_inj.mp h
      omega

theorem walkUp_lt {m : DomMap} {L : Nat} (hm : ∀ k v, m k = some v → v < L) :
    ∀ {fuel f t r : Nat}, walkUp m fuel f t = some r → f < L → r < L := by
  intro fuel
  induction fuel with
  | zero =>
    intro f t r h hf
    simp only [walkUp] at h
    by_cases hc : f < t
    · rw [if_pos hc] at h; simp at h
    · rw [if_neg hc] at h
      have := Option.some_inj.mp h
      omega
  | succ fl ih =>
    intro f t r h hf
    simp only [walkUp] at h
    by_cases hc : f < t
    · rw [if_pos hc] at h
      rcases Option.bind_eq_some.mp h with ⟨f', hf', hw⟩
      exact ih hw (hm f f' hf')
    · rw [if_neg hc] at h
      have := Option.some_inj.mp h
      omega

theorem intersectLoop_ge {m : DomMap} (hm : ∀ k v, m k = some v → k ≤ v) :
    ∀ {fuel f1 f2 r : Nat}, intersectLoop m fuel f1 f2 = some r → f1 ≤ r ∧ f2 ≤ r := by
  intro fuel
  induction fuel with
  | zero =>
    intro f1 f2 r h
    simp only [intersectLoop] at h
    by_cases hc : f1 = f2
    · rw [if_pos hc] at h
      have := Option.some_inj.mp h
      omega
    · rw [if_neg hc] at h; simp at h
  | succ fl ih =>
    intro f1 f2 r h
    simp only [intersectLoop] at h
    by_cases hc : f1 = f2
    · rw [if_pos hc] at h
      have := Option.some_inj.mp h
      omega
    · rw [if_neg hc] at h
      rcases Option.bind_eq_some.mp h with ⟨f1', h1, h'⟩
      rcases Option.bind_eq_some.mp h' with ⟨f2', h2, h''⟩
      have g1 := walkUp_ge hm h1
      have g2 := walkUp_ge hm h2
      have g3 := ih h''
      omega

theorem intersectLoop_lt {m : DomMap} {L : Nat} (hm : ∀ k v, m k = some v → v < L) :
    ∀ {fuel f1 f2 r : Nat}, intersectLoop m fuel f1 f2 = some r →
    f1 < L → f2 < L → r < L := by
  intro fuel
  induction fuel with
  | zero =>
    intro f1 f2 r h h1 h2
    simp only [intersectLoop] at h
    by_cases hc : f1 = f2
    · rw [if_pos hc] at h
      have := Option.some_inj.mp h
      omega
    · rw [if_neg hc] at h; simp at h
  | succ fl ih =>
    intro f1 f2 r h h1 h2
    simp only [intersectLoop] at h
    by_cases hc : f1 = f2
    · rw [if_pos hc] at h
      have := Option.some_inj.mp h
      omega
    · rw [if_neg hc] at h
      rcases Option.bind_eq_some.mp h with ⟨f1', hw1, h'⟩
      rcases Option.bind_eq_some.mp h' with ⟨f2', hw2, h''⟩
      have g1 := walkUp_lt hm hw1 h1
      have g2 := walkUp_lt hm hw2 h2
      exact ih h'' g1 g2

theorem foldPreds_ge {m : DomMap} (hm : ∀ k v, m k = some v → k ≤ v) {fuel : Nat} :
    ∀ {L : List Nat} {acc : Option Nat} {v : Nat},
    foldPreds m fuel L acc = some (some v) →
    (∀ a, acc = some a → a ≤ v) ∧ (∀ p ∈ L, (m p).isSome → p ≤ v) := by
  intro L
  induction L with
  | nil =>
    intro acc v h
    simp only [foldPreds] at h
    refine ⟨fun a ha => ?_, by simp⟩
    rw [ha] at h
    have := Option.some_inj.mp (Option.some_inj.mp h)
    omega
  | cons p rest ih =>
    intro acc v h
    simp only [foldPreds] at h
    by_cases hp : (m p).isSome
    · rw [if_pos hp] at h
      cases acc with
      | none =>
        rcases ih h with ⟨ha, hrest⟩
        refine ⟨by simp, ?_⟩
        intro q hq hq'
        rcases List.mem_cons.mp hq with rfl | hq2
        · exact ha q rfl
        · exact hrest q hq2 hq'
      | some i =>
        rcases Option.bind_eq_some.mp h with ⟨r, hr, h'⟩
        rcases ih h' with ⟨ha, hrest⟩
        have hge := intersectLoop_ge hm hr
        refine ⟨fun a haeq => ?_, ?_⟩
        · have : a = i := Option.some_inj.mp haeq.symm
          subst this
          have := ha r rfl
          omega
        · intro q hq hq'
          rcases List.mem_cons.mp hq with rfl | hq2
          · have := ha r rfl
            omega
          · exact hrest q hq2 hq'
    · rw [if_neg hp] at h
      rcases ih h with ⟨ha, hrest⟩
      refine ⟨ha, ?_⟩
      intro q hq hq'
      rcases List.mem_cons.mp hq with rfl | hq2
      · exact absurd hq' hp
      · exact hrest q hq2 hq'

theorem foldPreds_lt {m : DomMap} {len : Nat} (hm : ∀ k v, m k = some v → v < len)
    {fuel : Nat} :
    ∀ {L : List Nat} {acc : Option Nat} {v : Nat},
    foldPreds m fuel L acc = some (some v) →
    (∀ p ∈ L, p < len) → (∀ a, acc = some a → a < len) → v < len := by
  intro L
  induction L with
  | nil =>
    intro acc v h _ hacc
    simp only [foldPreds] at h
    cases acc with
    | none => simp at h
    | some a =>
      have h1 := Option.some_inj.mp (Option.some_inj.mp h)
      have h2 := hacc a rfl
      omega
  | cons p rest ih =>
    intro acc v h hL hacc
    simp only [foldPreds] at h
    by_cases hp : (m p).isSome
    · rw [if_pos hp] at h
      cases acc with
      | none =>
        exact ih h (fun q hq => hL q (List.mem_cons_of_mem _ hq))
          (fun a ha => (Option.some_inj.mp ha) ▸ hL p (List.mem_cons_self _ _))
      | some i =>
        rcases Option.bind_eq_some.mp h with ⟨r, hr, h'⟩
        have hrlt : r < len := intersectLoop_lt hm hr
          (hL p (List.mem_cons_self _ _)) (hacc i rfl)
        exact ih h' (fun q hq => hL q (List.mem_cons_of_mem _ hq))
          (fun a ha => (Option.some_inj.mp ha) ▸ hrlt)
    · rw [if_neg hp] at h
      exact ih h (fun q hq => hL q (List.mem_cons_of_mem _ hq)) hacc

theorem processNode_cases {m : DomMap} {fuel ni : Nat} {preds : List Nat}
    {m' : DomMap} {ch : Bool} (h : processNode m fuel preds ni = some (m', ch)) :
    (m' = m ∧ ch = false ∧ (m ni).isSome) ∨
    (∃ v, foldPreds m fuel preds none = some (some v) ∧
      m' = mInsert ni v m ∧ ch = true) := by
  simp only [processNode] at h
  rcases Option.bind_eq_some.mp h with ⟨acc, hacc, h'⟩
  cases acc with
  | none => simp at h'
  | some v =>
    simp only [] at h'
    by_cases he : m ni = some v
    · rw [if_pos he] at h'
      have hp := Option.some_inj.mp h'
      have h1 : m' = m := (congrArg Prod.fst hp).symm
      have h2 : ch = false := (congrArg Prod.snd hp).symm
      exact Or.inl ⟨h1, h2, by rw [he]; rfl⟩
    · rw [if_neg he] at h'
      have hp := Option.some_inj.mp h'
      exact Or.inr ⟨v, hacc, (congrArg Prod.fst hp).symm, (congrArg Prod.snd hp).symm⟩

theorem predsOf_getD {g : Graph} {po : List Nat} {i : Nat} (hi : i < po.length) :
    (predsOf g po).getD i [] =
    (List.range po.length).filter fun j =>
      (g.edges (po.getD j 0)).any fun en => lookupIdx po en == some i := by
  unfold predsOf
  rw [List.getD_eq_getElem _ _ (by simpa using hi), List.getElem_map]
  simp [List.getElem_range]

theorem mem_predsOf_iff {g : Graph} {po : List Nat} {i j : Nat} (hi : i < po.length) :
    j ∈ (predsOf g po).getD i [] ↔
    j < po.length ∧ ∃ en ∈ g.edges (po.getD j 0), lookupIdx po en = some i := by
  rw [predsOf_getD hi, List.mem_filter, List.mem_range]
  simp only [List.any_eq_true, beq_iff_eq]

theorem predsOf_mem_lt {g : Graph} {po : List Nat} {i j : Nat}
    (h : j ∈ (predsOf g po).getD i []) : j < po.length := by
  by_cases hi : i < po.length
  · exact ((mem_predsOf_iff hi).mp h).1
  · rw [List.getD_eq_getElem?_getD, List.getElem?_eq_none (by
      simpa [predsOf] using Nat.le_of_not_lt hi)] at h
    simp at h

theorem edge_mem_predsOf {g : Graph} {po : List Nat} (hF : DfsFacts g po)
    {i j : Nat} (hi : i < po.length) (hj : j < po.length)
    (he : po.getD i 0 ∈ g.edges (po.getD j 0)) :
    j ∈ (predsOf g po).getD i [] :=
  (mem_predsOf_iff hi).mpr ⟨hj, po.getD i 0, he, lookupIdx_getD_nodup hF.nodup hi⟩

theorem passLoop_take (g : Graph) {po : List Nat} (hF : DfsFacts g po) (ifuel : Nat) :
    ∀ (k : Nat), k ≤ po.length →
    ∀ (m : DomMap) (ch : Bool) (m' : DomMap) (ch' : Bool),
    passLoop po g.start (predsOf g po) ifuel ((po.take k).reverse) m ch = some (m', ch') →
    MInv po.length (po.length - 1) m →
    (∀ j, k ≤ j → j < po.length → (m j).isSome) →
    MInv po.length (po.length - 1) m' ∧ (∀ j, j < po.length → (m' j).isSome) := by
  intro k
  induction k with
  | zero =>
    intro _ m ch m' ch' h hI hA
    simp only [List.take_zero, List.reverse_nil, passLoop] at h
    have hp := Option.some_inj.mp h
    rw [Prod.mk.injEq] at hp
    obtain ⟨h1, -⟩ := hp
    subst h1
    exact ⟨hI, fun j hj => hA j (Nat.zero_le j) hj⟩
  | succ k ih =>
    intro hk m ch m' ch' h hI hA
    have hklen : k < po.length := hk
    rw [take_succ_getD hklen, List.reverse_append, List.reverse_singleton,
      List.singleton_append] at h
    by_cases hstart : po.getD k 0 = g.start
    · simp only [passLoop] at h
      rw [if_pos hstart] at h
      apply ih (le_of_lt hklen) m ch m' ch' h hI
      intro j hj hjlen
      by_cases hje : j = po.length - 1
      · rw [hje, hI.1]; rfl
      · have hk1 : k = po.length - 1 := (hF.getD_eq_start_iff hklen).mp hstart
        exact hA j (by omega) hjlen
    · simp only [passLoop] at h
      rw [if_neg hstart] at h
      have hlook : lookupIdx po (po.getD k 0) = some k :=
        lookupIdx_getD_nodup hF.nodup hklen
      rw [hlook] at h
      rcases Option.bind_eq_some.mp h with ⟨ni, hni, h⟩
      rw [(Option.some_inj.mp hni).symm] at h
      rcases Option.bind_eq_some.mp h with ⟨⟨m₁, ch₁⟩, hproc, hrest⟩
      have hknotroot : k ≠ po.length - 1 :=
        fun he => hstart ((hF.getD_eq_start_iff hklen).mpr he)
      rcases processNode_cases hproc with ⟨hm1, -, hsome⟩ | ⟨v, hfold, hm1, -⟩
      · subst hm1
        apply ih (le_of_lt hklen) _ _ m' ch' hrest hI
        intro j hj hjlen
        by_cases hje : j = k
        · exact hje ▸ hsome
        · exact hA j (by omega) hjlen
      · subst hm1
        have hmono : ∀ x v', m x = some v' → x ≤ v' :=
          fun x v' hx => (hI.2 x v' hx).2.2.1
        have hvals : ∀ x v', m x = some v' → v' < po.length :=
          fun x v' hx => (hI.2 x v' hx).2.1
        rcases hF.disc k hklen hstart with ⟨j, hkj, hjlen, hedge⟩
        have hjmem : j ∈ (predsOf g po).getD k [] :=
          edge_mem_predsOf hF hklen hjlen hedge
        have hjsome : (m j).isSome := hA j (by omega) hjlen
        have hjv : j ≤ v := (foldPreds_ge hmono hfold).2 j hjmem hjsome
        have hvlt : v < po.length :=
          foldPreds_lt hvals hfold (fun p hp => predsOf_mem_lt hp) (by simp)
        have hI1 : MInv po.length (po.length - 1) (mInsert k v m) := by
          constructor
          · rw [mInsert, if_neg (Ne.symm hknotroot)]
            exact hI.1
          · intro x v' hx
            rw [mInsert] at hx
            by_cases hxk : x = k
            · rw [if_pos hxk] at hx
              have hv := Option.some_inj.mp hx
              subst hxk
              subst hv
              exact ⟨hklen, hvlt, by omega, fun _ => by omega⟩
            · rw [if_neg hxk] at hx
              exact hI.2 x v' hx
        apply ih (le_of_lt hklen) _ _ m' ch' hrest hI1
        intro j' hj' hjlen'
        by_cases hje : j' = k
        · rw [hje]; simp [mInsert]
        · simp only [mInsert, if_neg hje]
          exact hA j' (by omega) hjlen'

theorem fixLoop_inv (g : Graph) {po : List Nat} (hF : DfsFacts g po) (ifuel : Nat) :
    ∀ (fuel : Nat) (m m' : DomMap),
    fixLoop po g.start (predsOf g po) ifuel fuel m = some m' →
    MInv po.length (po.length - 1) m →
    MInv po.length (po.length - 1) m' ∧ (∀ j, j < po.length → (m' j).isSome) := by
  intro fuel
  induction fuel with
  | zero => intro m m' h; simp [fixLoop] at h
  | succ f ih =>
    intro m m' h hI
    simp only [fixLoop] at h
    rcases Option.bind_eq_some.mp h with ⟨⟨m₁, ch⟩, hpass, hrest⟩
    simp only [] at hrest
    have hpass' : passLoop po g.start (predsOf g po) ifuel
        ((po.take po.length).reverse) m false = some (m₁, ch) := by
      rw [List.take_length]
      exact hpass
    have hres := passLoop_take g hF ifuel po.length le_rfl m false m₁ ch hpass' hI
      (fun j hj hjlen => absurd hjlen (by omega))
    cases ch with
    | false =>
      rw [if_neg (by simp)] at hrest
      have := Option.some_inj.mp hrest
      subst this
      exact hres
    | true =>
      rw [if_pos rfl] at hrest
      exact ih m₁ m' hrest hres.1

theorem extractDoms_spec {m : DomMap} :
    ∀ {L out : List Nat}, extractDoms m L = some out →
    out.length = L.length ∧ ∀ k, k < L.length → m (L.getD k 0) = some (out.getD k 0) := by
  intro L
  induction L with
  | nil =>
    intro out h
    simp only [extractDoms] at h
    have := Option.some_inj.mp h
    subst this
    exact ⟨rfl, by simp⟩
  | cons i rest ih =>
    intro out h
    simp only [extractDoms] at h
    rcases Option.bind_eq_some.mp h with ⟨v, hv, h'⟩
    rcases Option.bind_eq_some.mp h' with ⟨vs, hvs, h''⟩
    have hout := Option.some_inj.mp h''
    subst hout
    rcases ih hvs with ⟨hlen, hall⟩
    refine ⟨by simp [hlen], ?_⟩
    intro k hk
    cases k with
    | zero => simpa using hv
    | succ k' =>
      rw [List.getD_cons_succ, List.getD_cons_succ]
      exact hall k' (by simpa using hk)

theorem dominatorsVec_facts (g : Graph) {po doms : List Nat} (hF : DfsFacts g po)
    (h : dominatorsVec g po = some doms) :
    doms.length = po.length ∧
    (∀ i, i < po.length → doms.getD i 0 < po.length ∧ i ≤ doms.getD i 0 ∧
      (i ≠ po.length - 1 → i < doms.getD i 0)) ∧
    doms.getD (po.length - 1) 0 = po.length - 1 := by
  simp only [dominatorsVec] at h
  rw [hF.lookup_start] at h
  rcases Option.bind_eq_some.mp h with ⟨r0, hr0, h⟩
  rw [(Option.some_inj.mp hr0).symm] at h
  rcases Option.bind_eq_some.mp h with ⟨m, hm, hext⟩
  have hlenpos := hF.length_pos
  have hI0 : MInv po.length (po.length - 1)
      (mInsert (po.length - 1) (po.length - 1) fun _ => none) := by
    constructor
    · rw [mInsert, if_pos rfl]
    · intro k v hk
      rw [mInsert] at hk
      by_cases hkr : k = po.length - 1
      · rw [if_pos hkr] at hk
        have := Option.some_inj.mp hk
        subst hkr
        subst this
        exact ⟨by omega, by omega, le_rfl, fun hc => absurd rfl hc⟩
      · rw [if_neg hkr] at hk
        simp at hk
  rcases fixLoop_inv g hF _ _ _ _ hm hI0 with ⟨hI, hall⟩
  rcases extractDoms_spec hext with ⟨hlen, hvals⟩
  have hlen' : doms.length = po.length := by simpa using hlen
  refine ⟨hlen', ?_, ?_⟩
  · intro i hi
    have hv := hvals i (by simpa using hi)
    rw [getD_range hi] at hv
    rcases hI.2 i _ hv with ⟨-, h1, h2, h3⟩
    exact ⟨h1, h2, h3⟩
  · have hv := hvals (po.length - 1) (by simp; omega)
    rw [getD_range (by omega)] at hv
    rw [hI.1] at hv
    exact (Option.some_inj.mp hv).symm

theorem getD_set_self {α : Type} {l : List α} {n : Nat} {x d : α} (h : n < l.length) :
    (l.set n x).getD n d = x := by
  rw [List.getD_eq_getElem _ _ (by simpa using h)]
  exact List.getElem_set_self _

theorem getD_set_ne {α : Type} {l : List α} {n m : Nat} {x d : α} (h : n ≠ m) :
    (l.set n x).getD m d = l.getD m d := by
  rw [List.getD_eq_getElem?_getD, List.getElem?_set_ne h, ← List.getD_eq_getElem?_getD]

theorem rngSub_refl (a : Nat × Nat) : rngSub a a := ⟨le_rfl, le_rfl⟩

theorem rngSub_trans {a b c : Nat × Nat} (h1 : rngSub a b) (h2 : rngSub b c) :
    rngSub a c := ⟨le_trans h2.1 h1.1, le_trans h1.2 h2.2⟩

theorem rangesLoop_isSome {doms : List Nat} :
    ∀ {L : List Nat} {ranges : List (Nat × Nat)},
    (∀ i ∈ L, i ≤ doms.getD i 0) → (rangesLoop doms L ranges).isSome := by
  intro L
  induction L with
  | nil => intro ranges _; simp [rangesLoop]
  | cons i rest ih =>
    intro ranges hall
    simp only [rangesLoop]
    rw [if_pos (hall i (List.mem_cons_self _ _))]
    by_cases he : i ≠ doms.getD i 0
    · rw [if_pos he]
      exact ih fun q hq => hall q (List.mem_cons_of_mem _ hq)
    · rw [if_neg he]
      exact ih fun q hq => hall q (List.mem_cons_of_mem _ hq)

theorem rangesLoop_length {doms : List Nat} :
    ∀ {L : List Nat} {ranges out : List (Nat × Nat)},
    rangesLoop doms L ranges = some out → out.length = ranges.length := by
  intro L
  induction L with
  | nil =>
    intro ranges out h
    simp only [rangesLoop] at h
    rw [← Option.some_inj.mp h]
  | cons i rest ih =>
    intro ranges out h
    simp only [rangesLoop] at h
    by_cases hle : i ≤ doms.getD i 0
    · rw [if_pos hle] at h
      by_cases he : i ≠ doms.getD i 0
      · rw [if_pos he] at h
        rw [ih h, List.length_set]
      · rw [if_neg he] at h
        exact ih h
    · rw [if_neg hle] at h
      simp at h

theorem rangesLoop_grow {doms : List Nat} :
    ∀ {L : List Nat} {ranges out : List (Nat × Nat)},
    rangesLoop doms L ranges = some out →
    ∀ j, rngSub (ranges.getD j (0, 0)) (out.getD j (0, 0)) := by
  intro L
  induction L with
  | nil =>
    intro ranges out h j
    simp only [rangesLoop] at h
    rw [← Option.some_inj.mp h]
    exact rngSub_refl _
  | cons i rest ih =>
    intro ranges out h j
    simp only [rangesLoop] at h
    by_cases hle : i ≤ doms.getD i 0
    · rw [if_pos hle] at h
      by_cases he : i ≠ doms.getD i 0
      · rw [if_pos he] at h
        refine rngSub_trans ?_ (ih h j)
        by_cases hj : doms.getD i 0 = j
        · subst hj
          by_cases hlen : doms.getD i 0 < ranges.length
          · rw [getD_set_self hlen]
            exact ⟨inf_le_left, le_sup_left⟩
          · rw [List.set_eq_of_length_le (by omega)]
            exact rngSub_refl _
        · rw [getD_set_ne hj]
          exact rngSub_refl _
      · rw [if_neg he] at h
        exact ih h j
    · rw [if_neg hle] at h
      simp at h

theorem rangesLoop_stable_lt {doms : List Nat} :
    ∀ {L : List Nat} {ranges out : List (Nat × Nat)} {t : Nat},
    rangesLoop doms L ranges = some out → (∀ i ∈ L, t < i) →
    out.getD t (0, 0) = ranges.getD t (0, 0) := by
  intro L
  induction L with
  | nil =>
    intro ranges out t h _
    simp only [rangesLoop] at h
    rw [← Option.some_inj.mp h]
  | cons i rest ih =>
    intro ranges out t h hgt
    simp only [rangesLoop] at h
    by_cases hle : i ≤ doms.getD i 0
    · rw [if_pos hle] at h
      by_cases he : i ≠ doms.getD i 0
      · rw [if_pos he] at h
        rw [ih h (fun q hq => hgt q (List.mem_cons_of_mem _ hq))]
        have hti : t < i := hgt i (List.mem_cons_self _ _)
        exact getD_set_ne (by omega)
      · rw [if_neg he] at h
        exact ih h fun q hq => hgt q (List.mem_cons_of_mem _ hq)
    · rw [if_neg hle] at h
      simp at h

theorem rangesLoop_endpoints {doms : List Nat} :
    ∀ {L : List Nat} {ranges out : List (Nat × Nat)},
    rangesLoop doms L ranges = some out →
    (∀ i ∈ L, i < ranges.length) →
    (∀ j, j < ranges.length →
      (ranges.getD j (0, 0)).2 = j ∧ (ranges.getD j (0, 0)).1 ≤ j) →
    (∀ j, j < out.length → (out.getD j (0, 0)).2 = j ∧ (out.getD j (0, 0)).1 ≤ j) := by
  intro L
  induction L with
  | nil =>
    intro ranges out h _ hEnd
    simp only [rangesLoop] at h
    rw [← Option.some_inj.mp h]
    exact hEnd
  | cons i rest ih =>
    intro ranges out h hmem hEnd
    simp only [rangesLoop] at h
    by_cases hle : i ≤ doms.getD i 0
    · rw [if_pos hle] at h
      by_cases he : i ≠ doms.getD i 0
      · rw [if_pos he] at h
        have hilen : i < ranges.length := hmem i (List.mem_cons_self _ _)
        apply ih h
        · intro q hq
          rw [List.length_set]
          exact hmem q (List.mem_cons_of_mem _ hq)
        · intro j hj
          rw [List.length_set] at hj
          by_cases hji : doms.getD i 0 = j
          · subst hji
            rw [getD_set_self hj]
            rcases hEnd _ hj with ⟨he2, he1⟩
            rcases hEnd i hilen with ⟨hi2, hi1⟩
            constructor
            · simp only []
              rw [he2, hi2]
              exact sup_eq_left.mpr (by omega)
            · simp only []
              exact le_trans inf_le_left (by omega)
          · rw [getD_set_ne hji]
            exact hEnd j hj
      · rw [if_neg he] at h
        exact ih h (fun q hq => hmem q (List.mem_cons_of_mem _ hq)) hEnd
    · rw [if_neg hle] at h
      simp at h

theorem rangesLoop_sub_dom {doms : List Nat} :
    ∀ {L : List Nat} {ranges out : List (Nat × Nat)},
    rangesLoop doms L ranges = some out → L.Pairwise (· < ·) →
    ∀ i ∈ L, i ≠ doms.getD i 0 → doms.getD i 0 < ranges.length →
    rngSub (out.getD i (0, 0)) (out.getD (doms.getD i 0) (0, 0)) := by
  intro L
  induction L with
  | nil => intro ranges out _ _ i hi; simp at hi
  | cons a rest ih =>
    intro ranges out h hpw i hi hne hdlt
    simp only [rangesLoop] at h
    by_cases hle : a ≤ doms.getD a 0
    · by_cases hea : a ≠ doms.getD a 0
      · rw [if_pos hle, if_pos hea] at h
        rcases List.mem_cons.mp hi with rfl | hirest
        · have hstable : out.getD i (0, 0) =
              (ranges.set (doms.getD i 0)
                (min (ranges.getD (doms.getD i 0) (0, 0)).1 (ranges.getD i (0, 0)).1,
                  max (ranges.getD (doms.getD i 0) (0, 0)).2 (ranges.getD i (0, 0)).2)).getD
                i (0, 0) := by
            apply rangesLoop_stable_lt h
            intro q hq
            exact (List.pairwise_cons.mp hpw).1 q hq
          rw [hstable, getD_set_ne (Ne.symm hne)]
          refine rngSub_trans ?_ (rangesLoop_grow h (doms.getD i 0))
          rw [getD_set_self hdlt]
          exact ⟨inf_le_right, le_sup_right⟩
        · apply ih h (List.pairwise_cons.mp hpw).2 i hirest hne
          rw [List.length_set]
          exact hdlt
      · rw [if_pos hle, if_neg hea] at h
        rcases List.mem_cons.mp hi with rfl | hirest
        · exact absurd hne hea
        · exact ih h (List.pairwise_cons.mp hpw).2 i hirest hne hdlt
    · rw [if_neg hle] at h
      simp at h

theorem getD_map_range {n j : Nat} (h : j < n) :
    (((List.range n).map fun i => (i, i)).getD j (0, 0) : Nat × Nat) = (j, j) := by
  rw [List.getD_eq_getElem _ _ (by simpa using h), List.getElem_map]
  rw [List.getElem_range]

theorem rangesPass_facts {doms : List Nat} {ranges : List (Nat × Nat)}
    (h : rangesPass doms = some ranges) :
    ranges.length = doms.length ∧
    (∀ j, j < doms.length →
      (ranges.getD j (0, 0)).2 = j ∧ (ranges.getD j (0, 0)).1 ≤ j) ∧
    (∀ i, i < doms.length → i ≠ doms.getD i 0 → doms.getD i 0 < doms.length →
      rngSub (ranges.getD i (0, 0)) (ranges.getD (doms.getD i 0) (0, 0))) ∧
    (∀ j, j < doms.length → rngSub (j, j) (ranges.getD j (0, 0))) := by
  unfold rangesPass at h
  have hlen0 : (((List.range doms.length).map fun i => ((i, i) : Nat × Nat))).length
      = doms.length := by simp
  have hlen := rangesLoop_length h
  rw [hlen0] at hlen
  refine ⟨hlen, ?_, ?_, ?_⟩
  · intro j hj
    apply rangesLoop_endpoints h
    · intro q hq
      rw [hlen0]
      exact List.mem_range.mp hq
    · intro q hq
      rw [hlen0] at hq
      rw [getD_map_range hq]
      exact ⟨rfl, le_rfl⟩
    · omega
  · intro i hi hne hdlt
    apply rangesLoop_sub_dom h (List.pairwise_lt_range _) i (List.mem_range.mpr hi) hne
    rw [hlen0]
    exact hdlt
  · intro j hj
    have := rangesLoop_grow h j
    rw [getD_map_range hj] at this
    exact this

theorem compute_inv {g : Graph} {t : Dominators} (h : compute g = some t) :
    ∃ po doms ranges fronts,
      postorderOf g = some po ∧ dominatorsVec g po = some doms ∧
      rangesPass doms = some ranges ∧
      frontierPass (predsOf g po) doms (po.length + 1) = some fronts ∧
      t = ⟨po, doms, ranges, fronts⟩ := by
  simp only [compute] at h
  rcases Option.bind_eq_some.mp h with ⟨po, hpo, h⟩
  rcases Option.bind_eq_some.mp h with ⟨doms, hdoms, h⟩
  rcases Option.bind_eq_some.mp h with ⟨ranges, hranges, h⟩
  rcases Option.bind_eq_some.mp h with ⟨fronts, hfronts, h⟩
  exact ⟨po, doms, ranges, fronts, hpo, hdoms, hranges, hfronts,
    (Option.some_inj.mp h).symm⟩

theorem sub_root {doms : List Nat} {ranges : List (Nat × Nat)}
    (hbound : ∀ i, i < doms.length → doms.getD i 0 < doms.length ∧
      i ≤ doms.getD i 0 ∧ (i ≠ doms.length - 1 → i < doms.getD i 0))
    (hsub : ∀ i, i < doms.length → i ≠ doms.getD i 0 → doms.getD i 0 < doms.length →
      rngSub (ranges.getD i (0, 0)) (ranges.getD (doms.getD i 0) (0, 0))) :
    ∀ i, i < doms.length →
      rngSub (ranges.getD i (0, 0)) (ranges.getD (doms.length - 1) (0, 0)) := by
  suffices haux : ∀ d i, i < doms.length → doms.length - 1 - i ≤ d →
      rngSub (ranges.getD i (0, 0)) (ranges.getD (doms.length - 1) (0, 0)) from
    fun i hi => haux (doms.length - 1 - i) i hi le_rfl
  intro d
  induction d with
  | zero =>
    intro i hi hd
    have : i = doms.length - 1 := by omega
    subst this
    exact rngSub_refl _
  | succ d ih =>
    intro i hi hd
    by_cases hir : i = doms.length - 1
    · subst hir
      exact rngSub_refl _
    · rcases hbound i hi with ⟨hdlt, -, hstrict⟩
      have hlt : i < doms.getD i 0 := hstrict hir
      refine rngSub_trans (hsub i hi (by omega) hdlt) (ih (doms.getD i 0) hdlt ?_)
      omega

theorem dominates_some_lookup {t : Dominators} {a b : Nat} {ia ib : Nat}
    (ha : lookupIdx t.postorder a = some ia) (hb : lookupIdx t.postorder b = some ib) :
    t.dominates a b = some
      (decide ((t.dominance_ranges.getD ia (0, 0)).1 ≤ (t.dominance_ranges.getD ib (0, 0)).1) &&
       decide ((t.dominance_ranges.getD ib (0, 0)).2 ≤ (t.dominance_ranges.getD ia (0, 0)).2)) := by
  simp [Dominators.dominates, ha, hb]

theorem dominates_true_iff {t : Dominators} {a b : Nat} {ia ib : Nat}
    (ha : lookupIdx t.postorder a = some ia) (hb : lookupIdx t.postorder b = some ib) :
    t.dominates a b = some true ↔
    rngSub (t.dominance_ranges.getD ib (0, 0)) (t.dominance_ranges.getD ia (0, 0)) := by
  rw [dominates_some_lookup ha hb]
  simp [rngSub]

theorem dominates_none_left {t : Dominators} {a b : Nat}
    (h : lookupIdx t.postorder a = none) : t.dominates a b = none := by
  simp [Dominators.dominates, h]

theorem dominates_none_right {t : Dominators} {a b : Nat}
    (h : lookupIdx t.postorder b = none) : t.dominates a b = none := by
  cases hA : lookupIdx t.postorder a <;> simp [Dominators.dominates, hA, h]

theorem dominates_isSome_lookup {t : Dominators} {a b : Nat}
    (ha : (lookupIdx t.postorder a).isSome) (hb : (lookupIdx t.postorder b).isSome) :
    (t.dominates a b).isSome := by
  rcases Option.isSome_iff_exists.mp ha with ⟨ia, hia⟩
  rcases Option.isSome_iff_exists.mp hb with ⟨ib, hib⟩
  rw [dominates_some_lookup hia hib]
  rfl

theorem dominates_some_isSome {t : Dominators} {a b : Nat} {x : Bool}
    (h : t.dominates a b = some x) :
    ∃ ia ib, lookupIdx t.postorder a = some ia ∧ lookupIdx t.postorder b = some ib := by
  by_cases hA : (lookupIdx t.postorder a).isSome
  · by_cases hB : (lookupIdx t.postorder b).isSome
    · rcases Option.isSome_iff_exists.mp hA with ⟨ia, hia⟩
      rcases Option.isSome_iff_exists.mp hB with ⟨ib, hib⟩
      exact ⟨ia, ib, hia, hib⟩
    · rw [dominates_none_right (Option.not_isSome_iff_eq_none.mp hB)] at h
      simp at h
  · rw [dominates_none_left (Option.not_isSome_iff_eq_none.mp hA)] at h
    simp at h

theorem chainIdx_fuel {doms : List Nat}
    (hroot : doms.getD (doms.length - 1) 0 = doms.length - 1)
    (hbound : ∀ j, j < doms.length → doms.getD j 0 < doms.length ∧
      j ≤ doms.getD j 0 ∧ (j ≠ doms.length - 1 → j < doms.getD j 0)) :
    ∀ (d f1 f2 i : Nat), i < doms.length → doms.length - i ≤ d →
    doms.length - i ≤ f1 → doms.length - i ≤ f2 →
    chainIdx doms f1 i = chainIdx doms f2 i := by
  intro d
  induction d with
  | zero => intro f1 f2 i hi hd _ _; omega
  | succ d ih =>
    intro f1 f2 i hi hd h1 h2
    have hf1 : 0 < f1 := by omega
    have hf2 : 0 < f2 := by omega
    obtain ⟨f1', rfl⟩ : ∃ f1', f1 = f1' + 1 := ⟨f1 - 1, by omega⟩
    obtain ⟨f2', rfl⟩ : ∃ f2', f2 = f2' + 1 := ⟨f2 - 1, by omega⟩
    simp only [chainIdx]
    by_cases hfix : doms.getD i 0 = i
    · rw [if_pos hfix, if_pos hfix]
    · rw [if_neg hfix, if_neg hfix]
      have hir : i ≠ doms.length - 1 := by
        intro he
        exact hfix (he ▸ hroot)
      rcases hbound i hi with ⟨hdlt, -, hstrict⟩
      have hlt : i < doms.getD i 0 := hstrict hir
      rw [ih f1' f2' (doms.getD i 0) hdlt (by omega) (by omega) (by omega)]

theorem head?_append_of_ne_nil {l m : List Nat} (hl : l ≠ []) :
    (l ++ m).head? = l.head? := by
  cases l with
  | nil => exact absurd rfl hl
  | cons x xs => rfl

theorem reach_of_path (g : Graph) :
    ∀ {p : List Nat} {a b : Nat}, Reach g a → PathFromTo g a b p → Reach g b := by
  intro p
  induction p with
  | nil =>
    intro a b _ hp
    rcases hp with ⟨hh, -, -⟩
    simp at hh
  | cons x xs ih =>
    intro a b ha hp
    rcases hp with ⟨hh, hl, hc⟩
    have hxa : x = a := by simpa using hh
    subst hxa
    cases xs with
    | nil =>
      have : x = b := by simpa using hl
      exact this ▸ ha
    | cons y ys =>
      rcases List.chain'_cons.mp hc with ⟨hedge, hc'⟩
      refine ih (Reach.step ha hedge) ⟨rfl, ?_, hc'⟩
      simpa using hl

theorem reach_iff_reachable (g : Graph) (b : Nat) : Reach g b ↔ Reachable g b := by
  constructor
  · intro h
    induction h with
    | base =>
      exact ⟨[g.start], rfl, rfl, List.chain'_singleton _⟩
    | step hu he ih =>
      rename_i u v
      rcases ih with ⟨p, hh, hl, hc⟩
      have hpne : p ≠ [] := by
        intro hp
        rw [hp] at hh
        simp at hh
      refine ⟨p ++ [v], ?_, by simp, ?_⟩
      · rw [head?_append_of_ne_nil hpne]
        exact hh
      · rw [List.chain'_append]
        refine ⟨hc, List.chain'_singleton _, ?_⟩
        intro x hx y hy
        have hxu : x = u := by
          rw [hl] at hx
          exact (by simpa using hx : u = x).symm
        have hyv : y = v := (by simpa using hy : v = y).symm
        rw [hxu, hyv]
        exact he
  · rintro ⟨p, hp⟩
    exact reach_of_path g Reach.base hp

theorem compute_main {g : Graph} {t : Dominators} (hwf : g.WF)
    (h : compute g = some t) : MainFacts g t := by
  rcases compute_inv h with ⟨po, doms, ranges, fronts, hpo, hdoms, hranges, hfronts, rfl⟩
  have hF : DfsFacts g po := postorderOf_facts g hwf hpo
  rcases dominatorsVec_facts g hF hdoms with ⟨hlen, hfacts, hrootv⟩
  rcases rangesPass_facts hranges with ⟨hrlen, hrend, hrsub, hrself⟩
  have hlen' : doms.length = po.length := hlen
  refine ⟨hF, hlen, ?_, ?_, ?_, ?_, ?_, ?_, ?_, ?_, ?_⟩
  · intro i hi
    exact (hfacts i hi).1
  · intro i hi
    exact (hfacts i hi).2.1
  · intro i hi hir
    exact (hfacts i hi).2.2 hir
  · exact hlen' ▸ hrootv
  · rw [hrlen, hlen']
  · intro j hj
    have hj' : j < po.length := hj
    exact (hrend j (by omega)).1
  · intro j hj
    have hj' : j < po.length := hj
    exact (hrend j (by omega)).2
  · intro i hi hne
    have hi' : i < po.length := hi
    exact hrsub i (by omega) hne ((hfacts i hi').1.trans_eq hlen'.symm)
  · intro i hi
    have hi' : i < po.length := hi
    have hall : ∀ k, k < doms.length → doms.getD k 0 < doms.length ∧
        k ≤ doms.getD k 0 ∧ (k ≠ doms.length - 1 → k < doms.getD k 0) := by
      intro k hk
      rcases hfacts k (by omega) with ⟨h1, h2, h3⟩
      exact ⟨by omega, h2, fun hkr => h3 (by omega)⟩
    have hsr := sub_root hall (fun k hk hne hdl => hrsub k hk hne hdl) i (by omega)
    rw [hlen'] at hsr
    exact hsr

/-- C1: the claim is refuted by evaluating the code.  On the graph `g0`
(`0 → {1, 2}`, `1 → 3`, `2 → {3, 4}`) the query `dominates(2, 3)` returns
`Some(true)` although the path `0 → 1 → 3` runs from the start node to `3`
without passing through `2` (both `2` and `3` are reachable).  The O(1)
post-order range-containment test therefore does not implement the every-path
definition of dominance (`PathDominates`). -/
theorem C1_range_containment_not_path_dominance :
    ∃ t, compute g0 = some t ∧ t.dominates 2 3 = some true ∧
      PathFromTo g0 g0.start 3 [0, 1, 3] ∧ (2 : Nat) ∉ ([0, 1, 3] : List Nat) ∧
      ¬ PathDominates g0 2 3 ∧ Reachable g0 2 ∧ Reachable g0 3 := by
  cases h : compute g0 with
  | none => exact absurd h (by decide)
  | some t =>
    have hev : (compute g0).map (fun u => u.dominates 2 3) = some (some true) := by
      decide
    rw [h, Option.map_some'] at hev
    have hp13 : PathFromTo g0 g0.start 3 [0, 1, 3] :=
      ⟨rfl, rfl, by simp [g0, List.chain'_cons]⟩
    have hp02 : PathFromTo g0 g0.start 2 [0, 2] :=
      ⟨rfl, rfl, by simp [g0, List.chain'_cons]⟩
    refine ⟨t, rfl, Option.some_inj.mp hev, hp13, by decide, ?_,
      ⟨[0, 2], hp02⟩, ⟨[0, 1, 3], hp13⟩⟩
    intro hpd
    exact (by decide : (2 : Nat) ∉ ([0, 1, 3] : List Nat)) (hpd [0, 1, 3] hp13)

/-- C2: the membership law is refuted by evaluating the code.  On the graph
`gJ` (`0 → {1, 2}`, `1 → 0`, `2 → 0`, start `0`) the reachable node `0`
dominates its reachable predecessor `1` (trivially, because `0` is the start
node and heads every path) and does not strictly dominate `0` itself, so the
law requires `0` to be in the frontier of `0`; but
`dominance_frontier(0) = Some([])`.  The frontier pass walks each runner only
up to (and excluding) `idom(join)`, so the start node is never inserted into
any frontier even when it has predecessors. -/
theorem C2_frontier_law_fails_at_start :
    ∃ t, compute gJ = some t ∧ t.dominance_frontier 0 = some [] ∧
      (0 : Nat) ∉ ([] : List Nat) ∧
      (0 : Nat) ∈ gJ.edges 1 ∧ Reachable gJ 1 ∧ PathDominates gJ 0 1 ∧
      ¬ (PathDominates gJ 0 0 ∧ (0 : Nat) ≠ 0) := by
  cases h : compute gJ with
  | none => exact absurd h (by decide)
  | some t =>
    have hev : (compute gJ).map (fun u => u.dominance_frontier 0) =
        some (some []) := by decide
    rw [h, Option.map_some'] at hev
    refine ⟨t, rfl, Option.some_inj.mp hev, by decide, by decide,
      ⟨[0, 1], rfl, rfl, by simp [gJ, List.chain'_cons]⟩, ?_, ?_⟩
    · intro p hp
      rcases hp with ⟨hh, -, -⟩
      cases p with
      | nil => simp at hh
      | cons x xs =>
        have hx : x = 0 := by simpa [gJ] using hh
        exact hx ▸ List.mem_cons_self x xs
    · rintro ⟨-, hne⟩
      exact hne rfl

/-- C3: for every well-formed finite graph with a computed `Dominators`
structure and every reachable node `n` other than the start node, `idom n`
returns some node `d` which is itself reachable, `dominates d n` returns
`Some true`, and the dominator chain of `n` is exactly `n` followed by the
chain of `d` — hence no node lies strictly between `d` and `n` in the
dominator chain: `d` is the closest dominator along the chain. -/
theorem C3_idom_closest (g : Graph) (t : Dominators) (hwf : g.WF)
    (hc : compute g = some t) (n : Nat) (hr : Reachable g n) (hn : n ≠ g.start) :
    ∃ d, t.idom n = some d ∧ Reachable g d ∧ t.dominates d n = some true ∧
      nodeChain t n = n :: nodeChain t d := by
  have M := compute_main hwf hc
  have hF := M.dfs
  have hmem : n ∈ t.postorder := (hF.mem_iff n).mpr ((reach_iff_reachable g n).mpr hr)
  obtain ⟨i, hi⟩ := Option.isSome_iff_exists.mp (lookupIdx_isSome_iff.mpr hmem)
  have hilt : i < t.postorder.length := lookupIdx_some_lt hi
  have hgetn : t.postorder.getD i 0 = n := lookupIdx_some_getD hi
  have hiroot : i ≠ t.postorder.length - 1 := by
    intro he
    have hs := (hF.getD_eq_start_iff hilt).mpr he
    rw [hgetn] at hs
    exact hn hs
  have hstrict : i < t.dominators.getD i 0 := M.doms_strict i hilt hiroot
  have hdilt : t.dominators.getD i 0 < t.postorder.length := M.doms_lt i hilt
  have hlookd : lookupIdx t.postorder (t.postorder.getD (t.dominators.getD i 0) 0) =
      some (t.dominators.getD i 0) := lookupIdx_getD_nodup hF.nodup hdilt
  have hdl := M.doms_len
  refine ⟨t.postorder.getD (t.dominators.getD i 0) 0, ?_, ?_, ?_, ?_⟩
  · simp [Dominators.idom, hi]
  · exact (reach_iff_reachable g _).mp ((hF.mem_iff _).mp (getD_mem hdilt))
  · rw [dominates_true_iff hlookd hi]
    exact M.ranges_sub i hilt (by omega)
  · simp only [nodeChain, hi, hlookd]
    obtain ⟨l, hl⟩ : ∃ l, t.dominators.length = l + 1 :=
      ⟨t.dominators.length - 1, by omega⟩
    have hroot' : t.dominators.getD (t.dominators.length - 1) 0 =
        t.dominators.length - 1 := by
      rw [hdl]
      exact M.doms_root
    have hbound' : ∀ j, j < t.dominators.length →
        t.dominators.getD j 0 < t.dominators.length ∧ j ≤ t.dominators.getD j 0 ∧
        (j ≠ t.dominators.length - 1 → j < t.dominators.getD j 0) := by
      intro j hj
      have hj' : j < t.postorder.length := by omega
      refine ⟨?_, M.doms_ge j hj', ?_⟩
      · have := M.doms_lt j hj'
        omega
      · intro hne
        exact M.doms_strict j hj' (by omega)
    have hch : chainIdx t.dominators l (t.dominators.getD i 0) =
        chainIdx t.dominators (l + 1) (t.dominators.getD i 0) :=
      chainIdx_fuel hroot' hbound' t.dominators.length l (l + 1)
        (t.dominators.getD i 0) (by omega) (by omega) (by omega) (by omega)
    rw [hl]
    conv_lhs => rw [show chainIdx t.dominators (l + 1) i =
      if t.dominators.getD i 0 = i then [i]
      else i :: chainIdx t.dominators l (t.dominators.getD i 0) from rfl]
    rw [if_neg (show ¬ t.dominators.getD i 0 = i by omega), List.map_cons, hgetn, hch]

/-- C4: for every well-formed finite graph with a computed `Dominators`
structure, `dominates start n` and `dominates n n` both return `Some true`
for every node `n` reachable from the start node. -/
theorem C4_start_and_self_dominates (g : Graph) (t : Dominators) (hwf : g.WF)
    (hc : compute g = some t) (n : Nat) (hr : Reachable g n) :
    t.dominates g.start n = some true ∧ t.dominates n n = some true := by
  have M := compute_main hwf hc
  have hF := M.dfs
  have hmem : n ∈ t.postorder := (hF.mem_iff n).mpr ((reach_iff_reachable g n).mpr hr)
  obtain ⟨i, hi⟩ := Option.isSome_iff_exists.mp (lookupIdx_isSome_iff.mpr hmem)
  constructor
  · rw [dominates_true_iff hF.lookup_start hi]
    exact M.ranges_root i (lookupIdx_some_lt hi)
  · rw [dominates_true_iff hi hi]
    exact rngSub_refl _

/-- C5: for every well-formed finite graph with a computed `Dominators`
structure: if there is no path from the start node to `n`, then `idom n`,
`dominates a n` for any `a`, `dominates n b` for any `b`, and
`dominance_frontier n` all return `None`; conversely `idom` and
`dominance_frontier` return `Some` on every reachable node, and `dominates`
returns `Some` whenever both of its arguments are reachable. -/
theorem C5_unreachable_none (g : Graph) (t : Dominators) (hwf : g.WF)
    (hc : compute g = some t) (n : Nat) :
    (¬ Reachable g n → t.idom n = none ∧ (∀ a, t.dominates a n = none) ∧
      (∀ b, t.dominates n b = none) ∧ t.dominance_frontier n = none) ∧
    (Reachable g n → (t.idom n).isSome ∧ (t.dominance_frontier n).isSome) ∧
    (∀ a b, Reachable g a → Reachable g b → (t.dominates a b).isSome) := by
  have M := compute_main hwf hc
  have hF := M.dfs
  have hmem_iff : ∀ x, x ∈ t.postorder ↔ Reachable g x :=
    fun x => (hF.mem_iff x).trans (reach_iff_reachable g x)
  refine ⟨?_, ?_, ?_⟩
  · intro hnr
    have hnone : lookupIdx t.postorder n = none :=
      lookupIdx_none_iff.mpr fun hm => hnr ((hmem_iff n).mp hm)
    exact ⟨by simp [Dominators.idom, hnone], fun a => dominates_none_right hnone,
      fun b => dominates_none_left hnone,
      by simp [Dominators.dominance_frontier, hnone]⟩
  · intro hrn
    obtain ⟨i, hi⟩ := Option.isSome_iff_exists.mp
      (lookupIdx_isSome_iff.mpr ((hmem_iff n).mpr hrn))
    exact ⟨by simp [Dominators.idom, hi], by simp [Dominators.dominance_frontier, hi]⟩
  · intro a b hra hrb
    exact dominates_isSome_lookup (lookupIdx_isSome_iff.mpr ((hmem_iff a).mpr hra))
      (lookupIdx_isSome_iff.mpr ((hmem_iff b).mpr hrb))

/-- C6: for every well-formed finite graph with a computed `Dominators`
structure, the relation `dominates a b = Some true` is transitive, and it is
antisymmetric: mutual domination forces the two nodes to be equal, so
self-domination is the only symmetric case. -/
theorem C6_dominates_trans_antisymm (g : Graph) (t : Dominators) (hwf : g.WF)
    (hc : compute g = some t) :
    (∀ a b c, t.dominates a b = some true → t.dominates b c = some true →
      t.dominates a c = some true) ∧
    (∀ a b, t.dominates a b = some true → t.dominates b a = some true → a = b) := by
  have M := compute_main hwf hc
  constructor
  · intro a b c h1 h2
    obtain ⟨ia, ib, hia, hib⟩ := dominates_some_isSome h1
    obtain ⟨ib2, ic, hib2, hic⟩ := dominates_some_isSome h2
    have hbb : ib2 = ib := Option.some_inj.mp (hib2.symm.trans hib)
    rw [dominates_true_iff hia hib] at h1
    rw [dominates_true_iff hib2 hic] at h2
    rw [hbb] at h2
    rw [dominates_true_iff hia hic]
    exact rngSub_trans h2 h1
  · intro a b h1 h2
    obtain ⟨ia, ib, hia, hib⟩ := dominates_some_isSome h1
    obtain ⟨ib2, ia2, hib2, hia2⟩ := dominates_some_isSome h2
    have hbb : ib2 = ib := Option.some_inj.mp (hib2.symm.trans hib)
    have haa : ia2 = ia := Option.some_inj.mp (hia2.symm.trans hia)
    rw [dominates_true_iff hia hib] at h1
    rw [dominates_true_iff hib2 hia2] at h2
    rw [hbb, haa] at h2
    have hea := M.ranges_end ia (lookupIdx_some_lt hia)
    have heb := M.ranges_end ib (lookupIdx_some_lt hib)
    have hiab : ia = ib := by
      rcases h1 with ⟨-, h12⟩
      rcases h2 with ⟨-, h22⟩
      omega
    rw [← lookupIdx_some_getD hia, ← lookupIdx_some_getD hib, hiab]

/-- C7: in the dominator assignment produced by the fixpoint loop (post-order
construction and dominator-vector phase both succeeding), every post-order
index is at most its dominator's index — so the `assert!(i <= dominators[i])`
of the range construction never fails, witnessed by `rangesPass` succeeding —
and the inequality is strict for every node other than the start node. -/
theorem C7_dominator_index_ge (g : Graph) (po doms : List Nat) (hwf : g.WF)
    (hpo : postorderOf g = some po) (hd : dominatorsVec g po = some doms) :
    (∀ i, i < po.length → i ≤ doms.getD i 0 ∧
      (po.getD i 0 ≠ g.start → i < doms.getD i 0)) ∧
    (rangesPass doms).isSome := by
  have hF := postorderOf_facts g hwf hpo
  rcases dominatorsVec_facts g hF hd with ⟨hlen, hfacts, -⟩
  constructor
  · intro i hi
    refine ⟨(hfacts i hi).2.1, ?_⟩
    intro hne
    refine (hfacts i hi).2.2 ?_
    intro he
    exact hne ((hF.getD_eq_start_iff hi).mpr he)
  · apply rangesLoop_isSome
    intro i hi
    have hilt : i < doms.length := List.mem_range.mp hi
    exact (hfacts i (by omega)).2.1

/-- C9: equality of `Closure` values is reference identity on the wrapped
prototype pointer: `closureEq` returns `true` exactly when the two closures
wrap the same allocation, and two closures whose heap contents are equal
prototypes but whose pointers differ still compare unequal — the prototype's
fields are never compared by value. -/
theorem C9_closure_eq_is_ptr_eq :
    (∀ c1 c2 : Closure, closureEq c1 c2 = true ↔ c1.ptr = c2.ptr) ∧
    (∃ (store : Nat → Prototype) (c1 c2 : Closure),
      store c1.ptr = store c2.ptr ∧ closureEq c1 c2 = false) := by
  constructor
  · intro c1 c2
    simp [closureEq]
  · exact ⟨fun _ => ⟨0, [], []⟩, ⟨0⟩, ⟨1⟩, rfl, by decide⟩

/-- C10: for every well-formed finite graph with a computed `Dominators`
structure, `idom start` returns `Some start` — the start node is reported as
its own immediate dominator rather than `None`. -/
theorem C10_idom_start (g : Graph) (t : Dominators) (hwf : g.WF)
    (hc : compute g = some t) : t.idom g.start = some g.start := by
  have M := compute_main hwf hc
  have hF := M.dfs
  simp only [Dominators.idom, hF.lookup_start, Option.map_some']
  rw [M.doms_root]
  rw [hF.getD_last]

theorem C3_idom_closest_witness :
    ∃ t, compute gT = some t ∧ ∃ d, t.idom 2 = some d ∧ Reachable gT d ∧
      t.dominates d 2 = some true ∧ nodeChain t 2 = 2 :: nodeChain t d := by
  cases h : compute gT with
  | none => exact absurd h (by decide)
  | some t =>
    exact ⟨t, rfl, C3_idom_closest gT t (by decide) h 2
      ⟨[0, 1, 2], rfl, rfl, by simp [gT, List.chain'_cons]⟩ (by decide)⟩

theorem C4_start_and_self_dominates_witness :
    ∃ t, compute gT = some t ∧ t.dominates gT.start 3 = some true ∧
      t.dominates 3 3 = some true := by
  cases h : compute gT with
  | none => exact absurd h (by decide)
  | some t =>
    exact ⟨t, rfl, C4_start_and_self_dominates gT t (by decide) h 3
      ⟨[0, 1, 3], rfl, rfl, by simp [gT, List.chain'_cons]⟩⟩

theorem C5_unreachable_none_witness :
    ∃ t, compute gT = some t ∧ t.idom 6 = none ∧
      ((¬ Reachable gT 6 → t.idom 6 = none ∧ (∀ a, t.dominates a 6 = none) ∧
        (∀ b, t.dominates 6 b = none) ∧ t.dominance_frontier 6 = none) ∧
       (Reachable gT 6 → (t.idom 6).isSome ∧ (t.dominance_frontier 6).isSome) ∧
       (∀ a b, Reachable gT a → Reachable gT b → (t.dominates a b).isSome)) := by
  cases h : compute gT with
  | none => exact absurd h (by decide)
  | some t =>
    have hev : (compute gT).map (fun u => u.idom 6) = some none := by decide
    rw [h, Option.map_some'] at hev
    exact ⟨t, rfl, Option.some_inj.mp hev, C5_unreachable_none gT t (by decide) h 6⟩

theorem C6_dominates_trans_antisymm_witness :
    ∃ t, compute gT = some t ∧ t.dominates 0 4 = some true := by
  cases h : compute gT with
  | none => exact absurd h (by decide)
  | some t =>
    have h1 : (compute gT).map (fun u => u.dominates 0 2) = some (some true) := by
      decide
    have h2 : (compute gT).map (fun u => u.dominates 2 4) = some (some true) := by
      decide
    rw [h, Option.map_some'] at h1 h2
    exact ⟨t, rfl, (C6_dominates_trans_antisymm gT t (by decide) h).1 0 2 4
      (Option.some_inj.mp h1) (Option.some_inj.mp h2)⟩

theorem C7_dominator_index_ge_witness :
    (∀ i, i < ([5, 3, 4, 2, 1, 0] : List Nat).length →
      i ≤ ([4, 4, 3, 4, 5, 5] : List Nat).getD i 0 ∧
      (([5, 3, 4, 2, 1, 0] : List Nat).getD i 0 ≠ gT.start →
        i < ([4, 4, 3, 4, 5, 5] : List Nat).getD i 0)) ∧
    (rangesPass [4, 4, 3, 4, 5, 5]).isSome :=
  C7_dominator_index_ge gT [5, 3, 4, 2, 1, 0] [4, 4, 3, 4, 5, 5] (by decide)
    (by decide) (by decide)

theorem C10_idom_start_witness :
    ∃ t, compute gT = some t ∧ t.idom gT.start = some gT.start := by
  cases h : compute gT with
  | none => exact absurd h (by decide)
  | some t =>
    exact ⟨t, rfl, C10_idom_start gT t (by decide) h⟩

end Fabricator
